import Mathlib

/-!
Verification development for the SmartCopy synchronization core and dashboard.

The dashboard client code (`src/dashboard`, `format.ts`, the Jobs page) is
embedded directly from its TypeScript source.  The Rust synchronization core
(chunk scheduler, integrity verifier, sync planner, progress aggregator,
token bucket, bandwidth schedule) is not shipped in this tree — only its
README, deployment scripts and the dashboard that observes it are — so those
components are modelled from the specification text, as marked on each
definition.
-/

namespace SmartCopy

/-! ## Chunk scheduler (§4.3)

Modelled from the spec: files at or above a configurable size threshold
(default 1 GiB) are split into fixed-size chunks (default 64 MiB; final chunk
truncated to the remainder); files below the threshold are one whole-file
task.  A chunk is the pair (offset, length). -/

/-- Default chunk size: 64 MiB. -/
def chunkSizeDefault : Nat := 64 * 1024 * 1024

/-- Default large-file threshold: 1 GiB. -/
def thresholdDefault : Nat := 1024 * 1024 * 1024

/-- Modelled from the spec: split the byte range starting at `offset` of
`remaining` bytes into `cs`-sized chunks, final chunk truncated. -/
def chunkRangesFrom (cs offset remaining : Nat) : List (Nat × Nat) :=
  if h : cs = 0 ∨ remaining = 0 then []
  else if remaining ≤ cs then [(offset, remaining)]
  else (offset, cs) :: chunkRangesFrom cs (offset + cs) (remaining - cs)
termination_by remaining
decreasing_by
  simp only [not_or] at h
  omega

/-- Modelled from the spec: the chunk scheduler splits a file of `size` bytes
into fixed-size chunks when `threshold ≤ size`, and emits a single whole-file
task otherwise. -/
def scheduleFile (threshold cs size : Nat) : List (Nat × Nat) :=
  if threshold ≤ size then chunkRangesFrom cs 0 size else [(0, size)]

/-- The byte offsets covered by a chunk range list, in emission order. -/
def coveredOffsets (ranges : List (Nat × Nat)) : List Nat :=
  (ranges.map (fun c => List.range' c.1 c.2)).flatten

/-! ## Integrity verifier (§4.5)

Modelled from the spec: mode (a) hashes the file as one sequential stream of
bytes; mode (b) folds per-chunk results strictly in file-offset order.  Both
are expressed over an arbitrary incremental hash-update function. -/

/-- Modelled from the spec: sequential streaming hash — fold the update
function over the bytes of the file in order. -/
def seqHash (upd : Nat → Nat → Nat) (init : Nat) (data : List Nat) : Nat :=
  data.foldl upd init

/-- Modelled from the spec: feed one chunk's bytes into a running hash
state. -/
def hashChunk (upd : Nat → Nat → Nat) (state : Nat) (chunk : List Nat) : Nat :=
  chunk.foldl upd state

/-- Modelled from the spec: split file content into `cs`-byte chunks in
file-offset order (the data of the chunk scheduler's ranges). -/
def chunksOf (cs : Nat) (data : List Nat) : List (List Nat) :=
  if h : cs = 0 ∨ data = [] then []
  else data.take cs :: chunksOf cs (data.drop cs)
termination_by data.length
decreasing_by
  simp only [not_or] at h
  simp only [List.length_drop]
  have : 0 < data.length := List.length_pos.mpr h.2
  omega

/-- Modelled from the spec: chunked-parallel hash — per-chunk results folded
strictly in file-offset order, not completion order. -/
def chunkedHash (upd : Nat → Nat → Nat) (init : Nat) (cs : Nat)
    (data : List Nat) : Nat :=
  (chunksOf cs data).foldl (hashChunk upd) init

/-- A concrete incremental hash update, used to instantiate witnesses. -/
def demoUpd (s b : Nat) : Nat := (s * 31 + b) % (2 ^ 64)

/-! ## Progress aggregator (§4.9) and sync planner (§4.2)

Modelled from the spec: `ProgressState` mirrors the spec's data model
(total files/bytes fixed at plan time, transferred/failed/skipped counters,
bytes-already-satisfied as a skip bucket distinct from the transferred
bucket); the dashboard's `JobProgress` record in
`src/dashboard/src/services/api.ts` exposes the same counters. -/

/-- The final outcome of one file's processing. -/
inductive Outcome
  | transferred
  | skipped
  | failed
deriving DecidableEq, Repr

/-- Modelled from the spec: job-wide progress counters. -/
structure ProgressState where
  totalFiles : Nat
  totalBytes : Nat
  filesTransferred : Nat
  filesFailed : Nat
  filesSkipped : Nat
  bytesTransferred : Nat
  bytesSkipped : Nat
deriving DecidableEq, Repr

/-- Modelled from the spec: counters are incremented exactly once per file,
upon final confirmed success (or skip, or retry exhaustion). -/
def stepProgress (s : ProgressState) (f : Nat × Outcome) : ProgressState :=
  match f.2 with
  | .transferred =>
      { s with filesTransferred := s.filesTransferred + 1,
               bytesTransferred := s.bytesTransferred + f.1 }
  | .skipped =>
      { s with filesSkipped := s.filesSkipped + 1,
               bytesSkipped := s.bytesSkipped + f.1 }
  | .failed =>
      { s with filesFailed := s.filesFailed + 1 }

/-- Modelled from the spec: total files and bytes are fixed at plan time over
the whole job, counters start at zero. -/
def initProgress (files : List (Nat × Outcome)) : ProgressState :=
  { totalFiles := files.length
    totalBytes := (files.map Prod.fst).sum
    filesTransferred := 0
    filesFailed := 0
    filesSkipped := 0
    bytesTransferred := 0
    bytesSkipped := 0 }

/-- The progress state observed after the files in `processed` (a prefix of
the job's plan `files`) have finished. -/
def observe (files processed : List (Nat × Outcome)) : ProgressState :=
  processed.foldl stepProgress (initProgress files)

/-- Bytes of all non-failed files in a list. -/
def liveBytes : List (Nat × Outcome) → Nat
  | [] => 0
  | (n, .transferred) :: rest => n + liveBytes rest
  | (n, .skipped) :: rest => n + liveBytes rest
  | (_, .failed) :: rest => liveBytes rest

/-- Modelled from the spec: percent complete counts both the transferred and
the bytes-already-satisfied buckets against the fixed total. -/
def percentComplete (s : ProgressState) : Nat :=
  if s.totalBytes = 0 then 100
  else 100 * (s.bytesTransferred + s.bytesSkipped) / s.totalBytes

/-- Scanner output record (spec §3 data model, restricted to the fields the
planner consults). -/
structure FileRecord where
  path : String
  size : Nat
  mtime : Nat
deriving DecidableEq, Repr

/-- Manifest entry for a previously synchronized path (spec §3). -/
structure ManifestEntry where
  size : Nat
  mtime : Nat
  contentHash : Nat
deriving DecidableEq, Repr

/-- Per-file action decided by the sync planner. -/
inductive PlanAction
  | skip
  | fullCopy
  | deltaCopy
  | fullOverwrite
deriving DecidableEq, Repr

/-- Modelled from the spec (§4.2): no manifest entry → full copy; identical
(size, mtime) with incremental mode → skip; changed with delta mode → delta
plan; changed without delta → full overwrite. -/
def planAction (incremental delta : Bool) (f : FileRecord)
    (m : Option ManifestEntry) : PlanAction :=
  match m with
  | none => .fullCopy
  | some e =>
      if e.size = f.size ∧ e.mtime = f.mtime then
        if incremental then .skip else .fullOverwrite
      else if delta then .deltaCopy else .fullOverwrite

/-- The progress outcome of one planned file when its execution succeeds:
a skip lands in the skip bucket, every other action transfers the file. -/
def planOutcome (incremental delta : Bool)
    (fm : FileRecord × Option ManifestEntry) : Nat × Outcome :=
  (fm.1.size,
   if planAction incremental delta fm.1 fm.2 = PlanAction.skip then
     Outcome.skipped
   else Outcome.transferred)

/-- Run a whole planned job in which every copy succeeds. -/
def runPlanned (incremental delta : Bool)
    (job : List (FileRecord × Option ManifestEntry)) : ProgressState :=
  observe (job.map (planOutcome incremental delta))
    (job.map (planOutcome incremental delta))

/-! ## Bandwidth throttle (§4.7)

Modelled from the spec: a token bucket with capacity, current tokens, refill
rate and last-refill timestamp.  `acquire n` proceeds only once `n` tokens
are available and deducts them; `refill` advances the clock and adds
`elapsed_seconds * rate` tokens, clamped at capacity.  Concurrent operation
interleavings are modelled by the reachability relation below: each
compare-and-swap retry loop commits exactly one atomic read-modify-write,
so a concurrent history is a sequence of these atomic steps. -/

/-- Modelled from the spec: token bucket state. -/
structure TokenBucket where
  capacity : Int
  tokens : Int
  rate : Int
  lastRefill : Int
deriving DecidableEq, Repr

/-- Modelled from the spec: `tokens = min(capacity, tokens + elapsed_seconds
* rate)` as a single read-modify-write. -/
def refill (b : TokenBucket) (now : Int) : TokenBucket :=
  { b with tokens := min b.capacity (b.tokens + (now - b.lastRefill) * b.rate)
           lastRefill := now }

/-- Modelled from the spec: deduct `n` tokens; callers block until
`n ≤ tokens`, so the deduction is only ever applied under that guard. -/
def acquire (b : TokenBucket) (n : Int) : TokenBucket :=
  { b with tokens := b.tokens - n }

/-- States reachable from a well-formed initial bucket under any
interleaving of atomic acquire/refill commits. -/
inductive Reachable (cap rate : Int) : TokenBucket → Prop
  | init (t0 ts : Int) (h0 : 0 ≤ t0) (hc : t0 ≤ cap) :
      Reachable cap rate ⟨cap, t0, rate, ts⟩
  | refillStep (b : TokenBucket) (now : Int) (hb : Reachable cap rate b)
      (hn : b.lastRefill ≤ now) : Reachable cap rate (refill b now)
  | acquireStep (b : TokenBucket) (n : Int) (hb : Reachable cap rate b)
      (h0 : 0 ≤ n) (hn : n ≤ b.tokens) : Reachable cap rate (acquire b n)

/-! ## Bandwidth schedule (§4.7, README `schedule.json`)

Modelled from the spec and the README's schedule file format: an ordered
rule list `{name, days (null = every day), start_time, end_time, limit}`
plus a job-wide `default_limit` and `enabled` flag.  Times of day are
minutes since local midnight; a window whose end precedes its start wraps
around midnight (the README's night window 22:00–06:00). -/

inductive Weekday
  | monday
  | tuesday
  | wednesday
  | thursday
  | friday
  | saturday
  | sunday
deriving DecidableEq, Repr

/-- Modelled from the spec: one schedule rule. -/
structure ScheduleRule where
  name : String
  days : Option (List Weekday)
  startTime : Nat
  endTime : Nat
  limit : Nat
deriving DecidableEq, Repr

/-- Modelled from the spec: the schedule file contents. -/
structure Schedule where
  rules : List ScheduleRule
  defaultLimit : Nat
  enabled : Bool
deriving DecidableEq, Repr

/-- A rule with an absent day set applies every day. -/
def matchesDay (r : ScheduleRule) (day : Weekday) : Bool :=
  match r.days with
  | none => true
  | some ds => decide (day ∈ ds)

/-- Time-of-day window membership, wrapping around midnight when the end
precedes the start. -/
def inWindow (start stop t : Nat) : Bool :=
  if start ≤ stop then decide (start ≤ t) && decide (t < stop)
  else decide (start ≤ t) || decide (t < stop)

def ruleMatches (r : ScheduleRule) (day : Weekday) (t : Nat) : Bool :=
  matchesDay r day && inWindow r.startTime r.endTime t

/-- Modelled from the spec: the first rule whose day set and time window
contain the current local time wins; if none match, the job-wide default
limit applies. -/
def effectiveLimit (sch : Schedule) (day : Weekday) (t : Nat) : Nat :=
  match sch.rules.find? (fun r => ruleMatches r day t) with
  | some r => r.limit
  | none => sch.defaultLimit

/-- The business-hours rule of the spec's §8 schedule-resolution example
(also the first rule of the README's `schedule.json`): Mon–Fri 09:00–18:00,
limit 100 MiB/s. -/
def businessRule : ScheduleRule :=
  { name := "Business hours"
    days := some [Weekday.monday, Weekday.tuesday, Weekday.wednesday,
                  Weekday.thursday, Weekday.friday]
    startTime := 9 * 60
    endTime := 18 * 60
    limit := 104857600 }

/-- The spec's §8 example schedule: the business-hours rule with a 200 MiB/s
job-wide default. -/
def exampleSchedule : Schedule :=
  { rules := [businessRule]
    defaultLimit := 209715200
    enabled := true }

/-! ## ETA (§4.9 and the dashboard job view)

The ETA computation lives in the core; the rendering guard is embedded from
`JobCard` in the Jobs page, which renders the ETA line only when
`job.progress.eta_seconds` is truthy. -/

/-- Modelled from the spec: `ETA = bytes_remaining / current_throughput`
when throughput > 0, else undefined/null. -/
def computeEta (bytesRemaining throughput : ℚ) : Option ℚ :=
  if 0 < throughput then some (bytesRemaining / throughput) else none

/-- Embedded from `JobCard` (Jobs page): `job.progress.eta_seconds && (...)`
renders the ETA span only when the nullable field is truthy (present and
nonzero). -/
def rendersEta : Option ℚ → Bool
  | none => false
  | some e => decide (e ≠ 0)

/-! ## fetchApi (src/dashboard/src/services/api.ts)

Embedded from the TypeScript source: on a non-ok response the error body is
parsed as JSON (`catch` substituting `{message: response.statusText}`), and
`new Error(error.message || 'API request failed')` is thrown; on an ok
response `return response.json()` resolves with the parsed body when it
parses and otherwise propagates the `json()` rejection (e.g. an empty 204
body), with no constructed `Error`. -/

/-- Abstraction of a fetch response.  `errBody` is the JSON parse of the
body as the error path sees it — `none` when parsing throws, `some m` a
parsed object whose optional `message` field is `m`.  `okBody` is the JSON
parse as the ok path sees it — `none` when `response.json()` rejects
(malformed or empty body), `some v` the parsed value. -/
structure ApiResponse (T : Type) where
  ok : Bool
  statusText : String
  errBody : Option (Option String)
  okBody : Option T

/-- The observable outcome of a `fetchApi` call: resolution with the parsed
body, rejection with the constructed `Error` message, or rejection with the
ok-path `response.json()` parse failure. -/
inductive FetchOutcome (T : Type)
  | resolved (v : T)
  | rejectedError (msg : String)
  | rejectedParse
deriving DecidableEq, Repr

/-- Embedded from `fetchApi` in `api.ts`. -/
def fetchApi {T : Type} (r : ApiResponse T) : FetchOutcome T :=
  if r.ok then
    match r.okBody with
    | some v => FetchOutcome.resolved v
    | none => FetchOutcome.rejectedParse
  else
    FetchOutcome.rejectedError
      (match r.errBody with
       | some (some m) => if m = "" then "API request failed" else m
       | some none => "API request failed"
       | none =>
           if r.statusText = "" then "API request failed" else r.statusText)

/-- Whether a `fetchApi` call resolves (rather than rejecting in either
way). -/
def resolves {T : Type} : FetchOutcome T → Bool
  | .resolved _ => true
  | .rejectedError _ => false
  | .rejectedParse => false

/-! ## formatBytes (src/utils/format.ts)

Embedded from the TypeScript source:
`if (bytes === 0) return '0 B'`, then
`i = Math.floor(Math.log(bytes) / Math.log(1024))` and
`parseFloat((bytes / 1024**i).toFixed(2)) + ' ' + sizes[i]` with
`sizes = ['B','KB','MB','GB','TB','PB']`.  The model works over exact
rationals: the floor of the base-1024 logarithm is `Int.log 1024`, the
two-decimal rounding of `toFixed` is exact half-up rounding, and an index
outside the `sizes` array (where JavaScript yields `undefined`) is `none`. -/

def sizes : List String := ["B", "KB", "MB", "GB", "TB", "PB"]

/-- Exact model of `.toFixed(2)` followed by `parseFloat`. -/
def roundTo2 (q : ℚ) : ℚ := (round (q * 100) : ℤ) / 100

/-- Embedded from `formatBytes` in `format.ts`; the unit index `i` is the
floor of the base-1024 logarithm of the input. -/
def formatBytes (bytes : ℚ) : Option String :=
  if bytes = 0 then some "0 B"
  else if 0 ≤ Int.log 1024 bytes then
    match sizes[(Int.log 1024 bytes).toNat]? with
    | some u =>
        some (toString (roundTo2 (bytes / (1024 : ℚ) ^ Int.log 1024 bytes))
              ++ " " ++ u)
    | none => none
  else none

/-- Companion to `formatBytes` exposing the numeric value and unit of the
rendered string, for reasoning about the value component separately from
its decimal rendering. -/
def formatBytesVal (bytes : ℚ) : Option (ℚ × String) :=
  if bytes = 0 then some (0, "B")
  else if 0 ≤ Int.log 1024 bytes then
    match sizes[(Int.log 1024 bytes).toNat]? with
    | some u =>
        some (roundTo2 (bytes / (1024 : ℚ) ^ Int.log 1024 bytes), u)
    | none => none
  else none

/-! ## Jobs page pagination (dashboard Jobs page)

Embedded from the TypeScript source: `useState(1)` initializes the page to
1, the Previous button runs `setPage(p => Math.max(1, p - 1))` and the Next
button runs `setPage(p => Math.min(totalPages, p + 1))`. -/

inductive PageEvent
  | prev
  | next
deriving DecidableEq, Repr

/-- Embedded from the Jobs page button handlers. -/
def pageStep (totalPages p : Nat) : PageEvent → Nat
  | .prev => max 1 (p - 1)
  | .next => min totalPages (p + 1)

/-- The page state after a sequence of button presses, starting from the
initial `useState(1)`. -/
def runPages (totalPages : Nat) (evs : List PageEvent) : Nat :=
  evs.foldl (pageStep totalPages) 1

/-! ## Chunk scheduler lemmas -/

theorem chunkRangesFrom_covered (cs : Nat) (hcs : 0 < cs) :
    ∀ remaining offset, coveredOffsets (chunkRangesFrom cs offset remaining) =
      List.range' offset remaining := by
  intro remaining
  induction remaining using Nat.strong_induction_on with
  | _ remaining ih =>
    intro offset
    rw [chunkRangesFrom]
    by_cases h0 : cs = 0 ∨ remaining = 0
    · rcases h0 with h0 | h0
      · omega
      · simp [h0, coveredOffsets]
    · simp only [h0, dite_false]
      simp only [not_or] at h0
      by_cases hle : remaining ≤ cs
      · simp [hle, coveredOffsets]
      · simp only [hle, if_false]
        have hrec := ih (remaining - cs) (by omega) (offset + cs)
        simp only [coveredOffsets, List.map_cons, List.flatten_cons] at hrec ⊢
        rw [hrec]
        have := List.range'_append_1 offset cs (remaining - cs)
        rw [this]
        congr 1
        omega

theorem chunkRangesFrom_len_bounds (cs : Nat) :
    ∀ remaining offset c, c ∈ chunkRangesFrom cs offset remaining →
      0 < c.2 ∧ c.2 ≤ cs := by
  intro remaining
  induction remaining using Nat.strong_induction_on with
  | _ remaining ih =>
    intro offset c hc
    rw [chunkRangesFrom] at hc
    by_cases h0 : cs = 0 ∨ remaining = 0
    · simp [h0] at hc
    · simp only [h0, dite_false] at hc
      simp only [not_or] at h0
      by_cases hle : remaining ≤ cs
      · simp only [hle, if_true, List.mem_singleton] at hc
        subst hc
        exact ⟨by omega, hle⟩
      · simp only [hle, if_false, List.mem_cons] at hc
        rcases hc with hc | hc
        · subst hc
          exact ⟨by omega, le_refl _⟩
        · exact ih (remaining - cs) (by omega) (offset + cs) c hc

theorem chunkRangesFrom_ne_nil (cs offset remaining : Nat) (hcs : 0 < cs)
    (hr : 0 < remaining) : chunkRangesFrom cs offset remaining ≠ [] := by
  rw [chunkRangesFrom]
  have h0 : ¬(cs = 0 ∨ remaining = 0) := by omega
  simp only [h0, dite_false]
  by_cases hle : remaining ≤ cs <;> simp [hle]

theorem chunkRangesFrom_dropLast_full (cs : Nat) (hcs : 0 < cs) :
    ∀ remaining offset c, c ∈ (chunkRangesFrom cs offset remaining).dropLast →
      c.2 = cs := by
  intro remaining
  induction remaining using Nat.strong_induction_on with
  | _ remaining ih =>
    intro offset c hc
    rw [chunkRangesFrom] at hc
    by_cases h0 : cs = 0 ∨ remaining = 0
    · simp [h0] at hc
    · simp only [h0, dite_false] at hc
      simp only [not_or] at h0
      by_cases hle : remaining ≤ cs
      · simp [hle] at hc
      · simp only [hle, if_false] at hc
        rw [List.dropLast_cons_of_ne_nil
          (chunkRangesFrom_ne_nil cs (offset + cs) (remaining - cs) hcs
            (by omega))] at hc
        rcases List.mem_cons.mp hc with hc | hc
        · subst hc; rfl
        · exact ih (remaining - cs) (by omega) (offset + cs) c hc

/-- C4: for every file at or above the size threshold, the chunk scheduler
splits it into fixed-size chunks — every chunk is nonempty and at most the
chunk size, every chunk but the last is exactly the chunk size — and the
resulting ranges cover the byte offsets `[0, size)` exactly, in order,
with no gaps or overlaps. -/
theorem scheduleFile_partition (threshold cs size : Nat) (hcs : 0 < cs)
    (hsz : threshold ≤ size) :
    coveredOffsets (scheduleFile threshold cs size) = List.range size ∧
    (∀ c ∈ scheduleFile threshold cs size, 0 < c.2 ∧ c.2 ≤ cs) ∧
    (∀ c ∈ (scheduleFile threshold cs size).dropLast, c.2 = cs) := by
  have hsched : scheduleFile threshold cs size = chunkRangesFrom cs 0 size := by
    simp [scheduleFile, hsz]
  refine ⟨?_, ?_, ?_⟩
  · rw [hsched, chunkRangesFrom_covered cs hcs size 0, List.range_eq_range']
  · intro c hc
    rw [hsched] at hc
    exact chunkRangesFrom_len_bounds cs size 0 c hc
  · intro c hc
    rw [hsched] at hc
    exact chunkRangesFrom_dropLast_full cs hcs size 0 c hc

/-- Witness for C4 at the concrete instance threshold 4, chunk size 3,
file size 10: chunks (0,3), (3,3), (6,3), (9,1). -/
theorem scheduleFile_partition_witness :
    0 < 3 ∧ 4 ≤ 10 ∧
    (coveredOffsets (scheduleFile 4 3 10) = List.range 10 ∧
     (∀ c ∈ scheduleFile 4 3 10, 0 < c.2 ∧ c.2 ≤ 3) ∧
     (∀ c ∈ (scheduleFile 4 3 10).dropLast, c.2 = 3)) :=
  ⟨by decide, by decide, scheduleFile_partition 4 3 10 (by decide) (by decide)⟩

/-! ## Integrity verifier lemmas -/

theorem chunksOf_flatten_aux (cs : Nat) (hcs : 0 < cs) :
    ∀ n (data : List Nat), data.length ≤ n → (chunksOf cs data).flatten = data := by
  intro n
  induction n with
  | zero =>
    intro data h
    have : data = [] := List.length_eq_zero.mp (by omega)
    subst this
    rw [chunksOf]
    simp
  | succ n ih =>
    intro data h
    rw [chunksOf]
    by_cases h0 : cs = 0 ∨ data = []
    · rcases h0 with h0 | h0
      · omega
      · simp [h0]
    · simp only [h0, dite_false, List.flatten_cons]
      simp only [not_or] at h0
      have hdrop : (data.drop cs).length ≤ n := by
        simp only [List.length_drop]
        have : 0 < data.length := List.length_pos.mpr h0.2
        omega
      rw [ih (data.drop cs) hdrop, List.take_append_drop]

theorem chunksOf_flatten (cs : Nat) (hcs : 0 < cs) (data : List Nat) :
    (chunksOf cs data).flatten = data :=
  chunksOf_flatten_aux cs hcs data.length data (le_refl _)

/-- C1: for every file content and every chunk-size/file-size combination,
the hash produced by the chunked-parallel copy path — per-chunk results
folded in file-offset order — equals the hash of the same content as a
single sequential stream, for any incremental hash-update function. -/
theorem chunkedHash_eq_seqHash (upd : Nat → Nat → Nat) (init cs : Nat)
    (data : List Nat) (hcs : 0 < cs) :
    chunkedHash upd init cs data = seqHash upd init data := by
  unfold chunkedHash seqHash
  rw [← chunksOf_flatten cs hcs data, List.foldl_flatten]
  rw [chunksOf_flatten cs hcs data]
  rfl

/-- Witness for C1 at a concrete hash-update function, chunk size 2 and a
5-byte file. -/
theorem chunkedHash_eq_seqHash_witness :
    0 < 2 ∧ chunkedHash demoUpd 7 2 [1, 2, 3, 4, 5] = seqHash demoUpd 7 [1, 2, 3, 4, 5] :=
  ⟨by decide, chunkedHash_eq_seqHash demoUpd 7 2 [1, 2, 3, 4, 5] (by decide)⟩

/-! ## Progress aggregator lemmas -/

theorem foldl_stepProgress_totalBytes :
    ∀ (l : List (Nat × Outcome)) (s : ProgressState),
      (l.foldl stepProgress s).totalBytes = s.totalBytes := by
  intro l
  induction l with
  | nil => intro s; rfl
  | cons x rest ih =>
    intro s
    obtain ⟨n, o⟩ := x
    cases o <;> simp [List.foldl_cons, stepProgress, ih]

theorem foldl_stepProgress_bytes :
    ∀ (l : List (Nat × Outcome)) (s : ProgressState),
      (l.foldl stepProgress s).bytesTransferred +
        (l.foldl stepProgress s).bytesSkipped =
      s.bytesTransferred + s.bytesSkipped + liveBytes l := by
  intro l
  induction l with
  | nil => intro s; simp [liveBytes]
  | cons x rest ih =>
    intro s
    obtain ⟨n, o⟩ := x
    cases o <;> simp [List.foldl_cons, stepProgress, ih, liveBytes] <;> omega

theorem liveBytes_le_sum (l : List (Nat × Outcome)) :
    liveBytes l ≤ (l.map Prod.fst).sum := by
  induction l with
  | nil => simp [liveBytes]
  | cons x rest ih =>
    obtain ⟨n, o⟩ := x
    cases o <;> simp [liveBytes] <;> omega

theorem liveBytes_eq_sum (l : List (Nat × Outcome))
    (h : ∀ x ∈ l, x.2 ≠ Outcome.failed) :
    liveBytes l = (l.map Prod.fst).sum := by
  induction l with
  | nil => simp [liveBytes]
  | cons x rest ih =>
    obtain ⟨n, o⟩ := x
    have hrest : ∀ x ∈ rest, x.2 ≠ Outcome.failed := by
      intro y hy
      exact h y (List.mem_cons_of_mem _ hy)
    cases o with
    | transferred => simp [liveBytes, ih hrest]
    | skipped => simp [liveBytes, ih hrest]
    | failed =>
      exact absurd rfl (h (n, Outcome.failed) (List.mem_cons_self _ _))

theorem observe_complete_bytes (files : List (Nat × Outcome))
    (hnf : ∀ x ∈ files, x.2 ≠ Outcome.failed) :
    (observe files files).bytesTransferred +
      (observe files files).bytesSkipped = (observe files files).totalBytes := by
  rw [observe, foldl_stepProgress_bytes, foldl_stepProgress_totalBytes]
  simp only [initProgress]
  rw [liveBytes_eq_sum files hnf]
  omega

/-- C2: at every observation point (after any prefix of the job's files has
been processed) `bytes_transferred + bytes_skipped ≤ total_bytes`, and at
job completion with zero failed files the sum equals `total_bytes`
exactly. -/
theorem progress_bytes_invariant (files p : List (Nat × Outcome))
    (hp : p <+: files) :
    (observe files p).bytesTransferred + (observe files p).bytesSkipped ≤
      (observe files p).totalBytes ∧
    ((∀ x ∈ files, x.2 ≠ Outcome.failed) →
      (observe files files).bytesTransferred +
        (observe files files).bytesSkipped = (observe files files).totalBytes) := by
  constructor
  · rw [observe, foldl_stepProgress_bytes, foldl_stepProgress_totalBytes]
    simp only [initProgress]
    obtain ⟨t, ht⟩ := hp
    have hsum : ((p ++ t).map Prod.fst).sum = (p.map Prod.fst).sum + (t.map Prod.fst).sum := by
      rw [List.map_append, List.sum_append]
    calc 0 + 0 + liveBytes p ≤ (p.map Prod.fst).sum := by
          have := liveBytes_le_sum p
          omega
      _ ≤ (files.map Prod.fst).sum := by
          rw [← ht, hsum]
          omega
  · exact observe_complete_bytes files

/-- Witness for C2 at a concrete two-file job observed after its first
file. -/
theorem progress_bytes_invariant_witness :
    [(5, Outcome.transferred)] <+: [(5, Outcome.transferred), (3, Outcome.skipped)] ∧
    ((observe [(5, Outcome.transferred), (3, Outcome.skipped)]
        [(5, Outcome.transferred)]).bytesTransferred +
      (observe [(5, Outcome.transferred), (3, Outcome.skipped)]
        [(5, Outcome.transferred)]).bytesSkipped ≤
      (observe [(5, Outcome.transferred), (3, Outcome.skipped)]
        [(5, Outcome.transferred)]).totalBytes ∧
    ((∀ x ∈ [(5, Outcome.transferred), (3, Outcome.skipped)],
        x.2 ≠ Outcome.failed) →
      (observe [(5, Outcome.transferred), (3, Outcome.skipped)]
        [(5, Outcome.transferred), (3, Outcome.skipped)]).bytesTransferred +
        (observe [(5, Outcome.transferred), (3, Outcome.skipped)]
          [(5, Outcome.transferred), (3, Outcome.skipped)]).bytesSkipped =
      (observe [(5, Outcome.transferred), (3, Outcome.skipped)]
        [(5, Outcome.transferred), (3, Outcome.skipped)]).totalBytes)) :=
  ⟨⟨[(3, Outcome.skipped)], rfl⟩,
   progress_bytes_invariant [(5, Outcome.transferred), (3, Outcome.skipped)]
     [(5, Outcome.transferred)] ⟨[(3, Outcome.skipped)], rfl⟩⟩

/-! ## Sync planner lemmas -/

theorem planOutcome_ne_failed (incremental delta : Bool)
    (fm : FileRecord × Option ManifestEntry) :
    (planOutcome incremental delta fm).2 ≠ Outcome.failed := by
  unfold planOutcome
  by_cases h : planAction incremental delta fm.1 fm.2 = PlanAction.skip <;>
    simp [h]

/-- C6: a file whose manifest entry has identical (size, mtime) under
incremental mode is skipped by the planner — counted in `files_skipped`,
contributing 0 to `bytes_transferred`, its size added to the
bytes-already-satisfied bucket — and a completed job containing it still
reaches 100 percent complete. -/
theorem planner_skip_unchanged (f : FileRecord) (e : ManifestEntry) (d : Bool)
    (s : ProgressState) (h1 : e.size = f.size) (h2 : e.mtime = f.mtime) :
    planAction true d f (some e) = PlanAction.skip ∧
    planOutcome true d (f, some e) = (f.size, Outcome.skipped) ∧
    (stepProgress s (f.size, Outcome.skipped)).filesSkipped = s.filesSkipped + 1 ∧
    (stepProgress s (f.size, Outcome.skipped)).bytesTransferred = s.bytesTransferred ∧
    (stepProgress s (f.size, Outcome.skipped)).bytesSkipped = s.bytesSkipped + f.size ∧
    (∀ job : List (FileRecord × Option ManifestEntry), (f, some e) ∈ job →
      percentComplete (runPlanned true d job) = 100) := by
  have hplan : planAction true d f (some e) = PlanAction.skip := by
    simp [planAction, h1, h2]
  refine ⟨hplan, ?_, rfl, rfl, rfl, ?_⟩
  · simp [planOutcome, hplan]
  · intro job _
    have hnf : ∀ x ∈ job.map (planOutcome true d), x.2 ≠ Outcome.failed := by
      intro x hx
      obtain ⟨fm, _, rfl⟩ := List.mem_map.mp hx
      exact planOutcome_ne_failed true d fm
    have heq := observe_complete_bytes (job.map (planOutcome true d)) hnf
    unfold runPlanned
    unfold percentComplete
    by_cases h0 : (observe (job.map (planOutcome true d))
        (job.map (planOutcome true d))).totalBytes = 0
    · simp [h0]
    · rw [if_neg h0, ← heq]
      have : 0 < (observe (job.map (planOutcome true d))
          (job.map (planOutcome true d))).totalBytes := Nat.pos_of_ne_zero h0
      rw [heq, Nat.mul_div_cancel _ this]

/-- Witness for C6 at a concrete unchanged file in a two-file job. -/
theorem planner_skip_unchanged_witness :
    ((⟨10, 99, 0⟩ : ManifestEntry).size = (⟨"a.txt", 10, 99⟩ : FileRecord).size) ∧
    ((⟨10, 99, 0⟩ : ManifestEntry).mtime = (⟨"a.txt", 10, 99⟩ : FileRecord).mtime) ∧
    (planAction true false ⟨"a.txt", 10, 99⟩ (some ⟨10, 99, 0⟩) = PlanAction.skip ∧
     planOutcome true false (⟨"a.txt", 10, 99⟩, some ⟨10, 99, 0⟩) =
       ((10 : Nat), Outcome.skipped) ∧
     (stepProgress ⟨2, 14, 0, 0, 0, 4, 0⟩ (10, Outcome.skipped)).filesSkipped =
       (⟨2, 14, 0, 0, 0, 4, 0⟩ : ProgressState).filesSkipped + 1 ∧
     (stepProgress ⟨2, 14, 0, 0, 0, 4, 0⟩ (10, Outcome.skipped)).bytesTransferred =
       (⟨2, 14, 0, 0, 0, 4, 0⟩ : ProgressState).bytesTransferred ∧
     (stepProgress ⟨2, 14, 0, 0, 0, 4, 0⟩ (10, Outcome.skipped)).bytesSkipped =
       (⟨2, 14, 0, 0, 0, 4, 0⟩ : ProgressState).bytesSkipped + 10 ∧
     (∀ job : List (FileRecord × Option ManifestEntry),
        (⟨"a.txt", 10, 99⟩, some ⟨10, 99, 0⟩) ∈ job →
        percentComplete (runPlanned true false job) = 100)) :=
  ⟨rfl, rfl,
   planner_skip_unchanged ⟨"a.txt", 10, 99⟩ ⟨10, 99, 0⟩ false
     ⟨2, 14, 0, 0, 0, 4, 0⟩ rfl rfl⟩

/-! ## Token bucket lemmas -/

theorem reachable_inv (cap rate : Int) (hr : 0 ≤ rate) (b : TokenBucket)
    (h : Reachable cap rate b) :
    b.capacity = cap ∧ b.rate = rate ∧ 0 ≤ b.tokens ∧ b.tokens ≤ b.capacity := by
  induction h with
  | init t0 ts h0 hc => exact ⟨rfl, rfl, h0, hc⟩
  | refillStep b now hb hn ih =>
    obtain ⟨hcap, hrate, h0, hc⟩ := ih
    refine ⟨hcap, hrate, ?_, ?_⟩
    · simp only [refill]
      apply le_min
      · omega
      · have helapsed : 0 ≤ (now - b.lastRefill) * b.rate :=
          mul_nonneg (by omega) (by omega)
        omega
    · simp only [refill]
      exact min_le_left _ _
  | acquireStep b n hb h0n hn ih =>
    obtain ⟨hcap, hrate, h0, hc⟩ := ih
    refine ⟨hcap, hrate, ?_, ?_⟩
    · simp only [acquire]
      omega
    · simp only [acquire]
      omega

/-- C3: every reachable token-bucket state — under any interleaving of
atomic acquire and refill commits — keeps the token count within
`[0, capacity]`, and refill computes
`tokens = min(capacity, tokens + elapsed_seconds * rate)`. -/
theorem tokenBucket_bounds (cap rate : Int) (hr : 0 ≤ rate) (b : TokenBucket)
    (h : Reachable cap rate b) (now : Int) :
    0 ≤ b.tokens ∧ b.tokens ≤ b.capacity ∧
    (refill b now).tokens =
      min b.capacity (b.tokens + (now - b.lastRefill) * b.rate) := by
  obtain ⟨_, _, h0, hc⟩ := reachable_inv cap rate hr b h
  exact ⟨h0, hc, rfl⟩

/-- Witness for C3: a bucket of capacity 10 and rate 2 that starts with 5
tokens, is refilled at time 3 (clamping at capacity) and has 4 tokens
acquired. -/
theorem tokenBucket_bounds_witness :
    (0 : Int) ≤ 2 ∧
    (0 ≤ (acquire (refill ⟨10, 5, 2, 0⟩ 3) 4).tokens ∧
     (acquire (refill ⟨10, 5, 2, 0⟩ 3) 4).tokens ≤
       (acquire (refill ⟨10, 5, 2, 0⟩ 3) 4).capacity ∧
     (refill (acquire (refill ⟨10, 5, 2, 0⟩ 3) 4) 7).tokens =
       min (acquire (refill ⟨10, 5, 2, 0⟩ 3) 4).capacity
         ((acquire (refill ⟨10, 5, 2, 0⟩ 3) 4).tokens +
          (7 - (acquire (refill ⟨10, 5, 2, 0⟩ 3) 4).lastRefill) *
            (acquire (refill ⟨10, 5, 2, 0⟩ 3) 4).rate)) :=
  ⟨by decide,
   tokenBucket_bounds 10 2 (by decide) _
     (Reachable.acquireStep _ 4
       (Reachable.refillStep ⟨10, 5, 2, 0⟩ 3
         (Reachable.init 5 0 (by decide) (by decide)) (by decide))
       (by decide) (by decide)) 7⟩

/-! ## Bandwidth schedule lemmas -/

theorem find?_skip_unmatched {α : Type} (p : α → Bool) :
    ∀ (pre l : List α), (∀ q ∈ pre, p q = false) →
      (pre ++ l).find? p = l.find? p := by
  intro pre
  induction pre with
  | nil => simp
  | cons a rest ih =>
    intro l h
    have ha : p a = false := h a (List.mem_cons_self _ _)
    rw [List.cons_append, List.find?_cons_of_neg _ (by simp [ha])]
    exact ih l (fun q hq => h q (List.mem_cons_of_mem _ hq))

/-- C5: the effective rate limit is the limit of the first rule whose
day-of-week set (or "every day" when absent) and time-of-day window contain
the current local time; when no rule matches, the job-wide default applies.
In particular a Monday 09:00 query against {Business: Mon–Fri 09:00–18:00
limit=100M, default=200M} yields 100M, and a Sunday 07:00 query yields the
default. -/
theorem schedule_first_match :
    (∀ (sch : Schedule) (day : Weekday) (t : Nat) (pre : List ScheduleRule)
       (r : ScheduleRule) (post : List ScheduleRule),
       sch.rules = pre ++ r :: post →
       (∀ q ∈ pre, ruleMatches q day t = false) →
       ruleMatches r day t = true →
       effectiveLimit sch day t = r.limit) ∧
    (∀ (sch : Schedule) (day : Weekday) (t : Nat),
       (∀ r ∈ sch.rules, ruleMatches r day t = false) →
       effectiveLimit sch day t = sch.defaultLimit) ∧
    effectiveLimit exampleSchedule Weekday.monday (9 * 60) = 104857600 ∧
    effectiveLimit exampleSchedule Weekday.sunday (7 * 60) = 209715200 := by
  refine ⟨?_, ?_, by decide, by decide⟩
  · intro sch day t pre r post hrules hpre hr
    unfold effectiveLimit
    rw [hrules, find?_skip_unmatched _ pre (r :: post) hpre,
      List.find?_cons_of_pos post
        (show (fun q => ruleMatches q day t) r = true from hr)]
  · intro sch day t hnone
    unfold effectiveLimit
    rw [List.find?_eq_none.mpr (fun x hx => by simp [hnone x hx])]

/-- Witness for C5: the Monday 09:00 and Sunday 07:00 queries of the spec's
schedule-resolution example, resolved through the first-match and no-match
branches of the theorem. -/
theorem schedule_first_match_witness :
    effectiveLimit exampleSchedule Weekday.monday (9 * 60) = businessRule.limit ∧
    effectiveLimit exampleSchedule Weekday.sunday (7 * 60) =
      exampleSchedule.defaultLimit :=
  ⟨schedule_first_match.1 exampleSchedule Weekday.monday (9 * 60) [] businessRule
     [] rfl (by simp) (by decide),
   schedule_first_match.2.1 exampleSchedule Weekday.sunday (7 * 60) (by decide)⟩

/-! ## ETA lemmas -/

/-- C7: the reported ETA equals `bytes_remaining / current_throughput` when
the current throughput is positive and is null when the throughput is zero;
the job view renders an ETA only when the nullable field is present. -/
theorem eta_spec (br tp : ℚ) :
    (0 < tp → computeEta br tp = some (br / tp)) ∧
    (tp = 0 → computeEta br tp = none) ∧
    (∀ e : Option ℚ, rendersEta e = true → e ≠ none) := by
  refine ⟨?_, ?_, ?_⟩
  · intro h
    simp [computeEta, h]
  · intro h
    simp [computeEta, h]
  · intro e he
    cases e with
    | none => simp [rendersEta] at he
    | some x => simp

/-- Witness for C7 at throughput 2 and at throughput 0, with 10 bytes
remaining. -/
theorem eta_spec_witness :
    computeEta 10 2 = some (10 / 2) ∧ computeEta 10 0 = none :=
  ⟨(eta_spec 10 2).1 (by norm_num), (eta_spec 10 0).2.1 rfl⟩

/-! ## fetchApi lemmas -/

/-- C8 counterexample: an ok response whose body fails to parse as JSON
(e.g. the empty body of a 204 from the cancel-job DELETE) still rejects —
`response.json()` is returned unguarded on the ok path — so "rejects
exactly when ok = false" is false of the source. -/
theorem fetchApi_ok_parse_reject :
    (⟨true, "No Content", none, none⟩ : ApiResponse Nat).ok = true ∧
    fetchApi (⟨true, "No Content", none, none⟩ : ApiResponse Nat) =
      FetchOutcome.rejectedParse ∧
    resolves (fetchApi (⟨true, "No Content", none, none⟩ : ApiResponse Nat)) =
      false :=
  ⟨rfl, rfl, rfl⟩

/-- C8 (amended): `fetchApi` rejects with a constructed `Error` exactly when
the response is not ok, with the message taken from the JSON body's truthy
`message` field, falling back to the status text substituted by the
parse-failure handler, and to "API request failed" when neither is
available; an ok response resolves with the parsed JSON body when the body
parses and rejects with the propagated `response.json()` parse failure when
it does not. -/
theorem fetchApi_spec_amended {T : Type} (r : ApiResponse T) :
    ((∃ m, fetchApi r = FetchOutcome.rejectedError m) ↔ r.ok = false) ∧
    (resolves (fetchApi r) = true ↔ r.ok = true ∧ r.okBody ≠ none) ∧
    (∀ v, r.ok = true → r.okBody = some v →
      fetchApi r = FetchOutcome.resolved v) ∧
    (r.ok = true → r.okBody = none → fetchApi r = FetchOutcome.rejectedParse) ∧
    (∀ m, r.ok = false → r.errBody = some (some m) → m ≠ "" →
      fetchApi r = FetchOutcome.rejectedError m) ∧
    (r.ok = false → r.errBody = some (some "") →
      fetchApi r = FetchOutcome.rejectedError "API request failed") ∧
    (r.ok = false → r.errBody = some none →
      fetchApi r = FetchOutcome.rejectedError "API request failed") ∧
    (r.ok = false → r.errBody = none → r.statusText ≠ "" →
      fetchApi r = FetchOutcome.rejectedError r.statusText) ∧
    (r.ok = false → r.errBody = none → r.statusText = "" →
      fetchApi r = FetchOutcome.rejectedError "API request failed") := by
  obtain ⟨ok, st, eb, ob⟩ := r
  refine ⟨?_, ?_, ?_, ?_, ?_, ?_, ?_, ?_, ?_⟩
  · constructor
    · rintro ⟨m, hm⟩
      cases ok with
      | true =>
        exfalso
        cases ob <;> simp [fetchApi] at hm
      | false => rfl
    · intro hok
      subst hok
      exact ⟨_, rfl⟩
  · cases ok with
    | true =>
      cases ob <;> simp [fetchApi, resolves]
    | false =>
      simp [fetchApi, resolves]
  · intro v hok hb
    subst hok
    have hb2 : ob = some v := hb
    subst hb2
    simp [fetchApi]
  · intro hok hb
    subst hok
    have hb2 : ob = none := hb
    subst hb2
    simp [fetchApi]
  · intro m hok hb hm
    subst hok
    have hb2 : eb = some (some m) := hb
    subst hb2
    simp [fetchApi, hm]
  · intro hok hb
    subst hok
    have hb2 : eb = some (some "") := hb
    subst hb2
    simp [fetchApi]
  · intro hok hb
    subst hok
    have hb2 : eb = some none := hb
    subst hb2
    simp [fetchApi]
  · intro hok hb hst
    subst hok
    have hb2 : eb = none := hb
    subst hb2
    have hst2 : st ≠ "" := hst
    simp [fetchApi, hst2]
  · intro hok hb hst
    subst hok
    have hb2 : eb = none := hb
    subst hb2
    have hst2 : st = "" := hst
    subst hst2
    simp [fetchApi]

/-- Witness for C8 (amended) at two concrete responses: an ok response with
a parsed body resolves with it, and a 404 whose body fails to parse rejects
with the status text. -/
theorem fetchApi_spec_amended_witness :
    fetchApi (⟨true, "", none, some 42⟩ : ApiResponse Nat) =
      FetchOutcome.resolved 42 ∧
    fetchApi (⟨false, "Not Found", none, none⟩ : ApiResponse Nat) =
      FetchOutcome.rejectedError "Not Found" :=
  ⟨(fetchApi_spec_amended (⟨true, "", none, some 42⟩ : ApiResponse Nat)).2.2.1
     42 rfl rfl,
   (fetchApi_spec_amended
      (⟨false, "Not Found", none, none⟩ : ApiResponse Nat)).2.2.2.2.2.2.2.1
     rfl rfl (by decide)⟩

/-! ## Pagination lemmas -/

theorem pageStep_bounds_aux (tp : Nat) (htp : 1 ≤ tp) :
    ∀ (evs : List PageEvent) (p : Nat), 1 ≤ p → p ≤ tp →
      1 ≤ evs.foldl (pageStep tp) p ∧ evs.foldl (pageStep tp) p ≤ tp := by
  intro evs
  induction evs with
  | nil =>
    intro p h1 h2
    exact ⟨h1, h2⟩
  | cons e rest ih =>
    intro p h1 h2
    rw [List.foldl_cons]
    cases e with
    | prev =>
      exact ih (pageStep tp p PageEvent.prev)
        (le_max_left 1 (p - 1)) (max_le htp (by omega))
    | next =>
      exact ih (pageStep tp p PageEvent.next)
        (le_min htp (by omega)) (min_le_left tp (p + 1))

/-- C10: the Jobs page state starts at 1, and under any sequence of
Previous/Next presses — `max(1, page - 1)` and `min(total_pages, page + 1)`
— stays within `[1, total_pages]` whenever `total_pages ≥ 1`. -/
theorem pagination_bounds (tp : Nat) (htp : 1 ≤ tp) (evs : List PageEvent) :
    runPages tp [] = 1 ∧ 1 ≤ runPages tp evs ∧ runPages tp evs ≤ tp :=
  ⟨rfl, pageStep_bounds_aux tp htp evs 1 (le_refl 1) htp⟩

/-- Witness for C10 with 3 total pages and a concrete press sequence that
hits both clamps. -/
theorem pagination_bounds_witness :
    1 ≤ 3 ∧
    (runPages 3 [] = 1 ∧
     1 ≤ runPages 3 [PageEvent.prev, PageEvent.next, PageEvent.next,
        PageEvent.next, PageEvent.next, PageEvent.prev] ∧
     runPages 3 [PageEvent.prev, PageEvent.next, PageEvent.next,
        PageEvent.next, PageEvent.next, PageEvent.prev] ≤ 3) :=
  ⟨by decide,
   pagination_bounds 3 (by decide) [PageEvent.prev, PageEvent.next,
     PageEvent.next, PageEvent.next, PageEvent.next, PageEvent.prev]⟩

/-! ## formatBytes lemmas -/

/-- C9 counterexample: at the non-integer input 5.555 (= 1111/200) the unit
index is 0 but the rendered value is the two-decimal rounding 5.56
(= 139/25) produced by `toFixed(2)`, not the unscaled value, refuting the
claim's "the result is the unscaled value suffixed ' B'" over its stated
domain `1 ≤ bytes < 1024`. -/
theorem formatBytes_unscaled_counterexample :
    1 ≤ (1111 / 200 : ℚ) ∧ (1111 / 200 : ℚ) < 1024 ∧
    formatBytesVal (1111 / 200 : ℚ) = some ((139 / 25 : ℚ), "B") ∧
    formatBytes (1111 / 200 : ℚ) =
      some (toString (139 / 25 : ℚ) ++ " " ++ "B") ∧
    (139 / 25 : ℚ) ≠ (1111 / 200 : ℚ) := by
  have hb : 1 < (1024 : ℕ) := by norm_num
  have h0q : (0 : ℚ) < 1111 / 200 := by norm_num
  have hq1 : (1 : ℚ) ≤ 1111 / 200 := by norm_num
  have hq2 : (1111 / 200 : ℚ) < 1024 := by norm_num
  have hpow1 : (((1024 : ℕ)) : ℚ) ^ (1 : ℤ) = (1024 : ℚ) := by norm_num
  have hge : 0 ≤ Int.log 1024 (1111 / 200 : ℚ) := by
    refine (Int.zpow_le_iff_le_log hb h0q).mp ?_
    rw [zpow_zero]
    exact hq1
  have hlt1 : Int.log 1024 (1111 / 200 : ℚ) < 1 := by
    refine (Int.lt_zpow_iff_log_lt hb h0q).mp ?_
    rw [hpow1]
    exact hq2
  have hlog : Int.log 1024 (1111 / 200 : ℚ) = 0 := by omega
  have hround : round ((1111 / 200 : ℚ) * 100) = (556 : ℤ) := by
    have harg : (1111 / 200 : ℚ) * 100 + 1 / 2 = ((556 : ℤ) : ℚ) := by norm_num
    rw [round_eq, harg, Int.floor_intCast]
  have hval : roundTo2 ((1111 / 200 : ℚ) / (1024 : ℚ) ^ (0 : ℤ)) = (139 / 25 : ℚ) := by
    rw [zpow_zero, div_one, roundTo2, hround]
    norm_num
  refine ⟨hq1, hq2, ?_, ?_, by norm_num⟩
  · unfold formatBytesVal
    rw [if_neg (ne_of_gt h0q), hlog, if_pos (le_refl (0 : ℤ))]
    have hs : sizes[(0 : ℤ).toNat]? = some "B" := rfl
    rw [hs, hval]
  · unfold formatBytes
    rw [if_neg (ne_of_gt h0q), hlog, if_pos (le_refl (0 : ℤ))]
    have hs : sizes[(0 : ℤ).toNat]? = some "B" := rfl
    rw [hs, hval]

/-- C9 (amended): `formatBytes 0` is the string "0 B"; for every input in
`[1, 1024)` the unit index is 0 and the result is the value rounded to two
decimals (`toFixed(2)`) with the "B" unit — the unscaled value exactly when
that rounding is exact, in particular for every integer input; the unit
index stays inside the 6-element `sizes` array exactly for inputs in
`[1, 1024^6)`, while inputs in `(0, 1)` get a negative index and inputs at
or above `1024^6` an index past the end, both outside the array. -/
theorem formatBytes_spec_amended :
    formatBytes 0 = some "0 B" ∧
    (∀ q : ℚ, 1 ≤ q → q < 1024 →
      Int.log 1024 q = 0 ∧
      formatBytes q = some (toString (roundTo2 q) ++ " " ++ "B")) ∧
    (∀ b : Nat, 1 ≤ b → b < 1024 →
      roundTo2 ((b : ℕ) : ℚ) = ((b : ℕ) : ℚ) ∧
      formatBytes ((b : ℕ) : ℚ) = some (toString ((b : ℕ) : ℚ) ++ " " ++ "B")) ∧
    (∀ q : ℚ, 1 ≤ q → q < (1024 : ℚ) ^ (6 : ℕ) →
      0 ≤ Int.log 1024 q ∧ Int.log 1024 q < 6 ∧ (formatBytes q).isSome = true) ∧
    (∀ q : ℚ, 0 < q → q < 1 → Int.log 1024 q < 0 ∧ formatBytes q = none) ∧
    (∀ q : ℚ, (1024 : ℚ) ^ (6 : ℕ) ≤ q →
      6 ≤ Int.log 1024 q ∧ formatBytes q = none) := by
  have hb : 1 < (1024 : ℕ) := by norm_num
  have hpow6 : (((1024 : ℕ) : ℚ)) ^ (6 : ℤ) = (1024 : ℚ) ^ (6 : ℕ) := by
    norm_num
  have hpow1 : (((1024 : ℕ)) : ℚ) ^ (1 : ℤ) = (1024 : ℚ) := by norm_num
  refine ⟨rfl, ?_, ?_, ?_, ?_, ?_⟩
  · intro q hq1 hq2
    have h0q : 0 < q := lt_of_lt_of_le zero_lt_one hq1
    have hge : 0 ≤ Int.log 1024 q := by
      refine (Int.zpow_le_iff_le_log hb h0q).mp ?_
      rw [zpow_zero]
      exact hq1
    have hlt1 : Int.log 1024 q < 1 := by
      refine (Int.lt_zpow_iff_log_lt hb h0q).mp ?_
      rw [hpow1]
      exact hq2
    have hlog : Int.log 1024 q = 0 := by omega
    refine ⟨hlog, ?_⟩
    unfold formatBytes
    rw [if_neg (ne_of_gt h0q), hlog, if_pos (le_refl (0 : ℤ))]
    have hs : sizes[(0 : ℤ).toNat]? = some "B" := rfl
    rw [hs]
    have hdiv : q / (1024 : ℚ) ^ (0 : ℤ) = q := by rw [zpow_zero, div_one]
    rw [hdiv]
  · intro b hb1 hb2
    have hlog : Int.log 1024 ((b : ℕ) : ℚ) = 0 := by
      rw [Int.log_natCast]
      exact_mod_cast Nat.log_eq_zero_iff.mpr (Or.inl hb2)
    have hq0 : ((b : ℕ) : ℚ) ≠ 0 := Nat.cast_ne_zero.mpr (by omega)
    have hval0 : roundTo2 ((b : ℕ) : ℚ) = ((b : ℕ) : ℚ) := by
      rw [roundTo2]
      have hcast : ((b : ℕ) : ℚ) * 100 = ((b * 100 : ℕ) : ℚ) := by push_cast; ring
      rw [hcast, round_natCast]
      push_cast
      rw [mul_div_assoc]
      norm_num
    refine ⟨hval0, ?_⟩
    have hval : roundTo2 (((b : ℕ) : ℚ) / (1024 : ℚ) ^ (0 : ℤ)) = ((b : ℕ) : ℚ) := by
      rw [zpow_zero, div_one, hval0]
    unfold formatBytes
    rw [if_neg hq0, hlog]
    rw [if_pos (le_refl (0 : ℤ))]
    have hs : sizes[(0 : ℤ).toNat]? = some "B" := rfl
    rw [hs, hval]
  · intro q hq1 hq2
    have h0q : 0 < q := lt_of_lt_of_le zero_lt_one hq1
    have hge : 0 ≤ Int.log 1024 q := by
      refine (Int.zpow_le_iff_le_log hb h0q).mp ?_
      rw [zpow_zero]
      exact hq1
    have hlt : Int.log 1024 q < 6 := by
      refine (Int.lt_zpow_iff_log_lt hb h0q).mp ?_
      rw [hpow6]
      exact hq2
    refine ⟨hge, hlt, ?_⟩
    have hq0 : q ≠ 0 := ne_of_gt h0q
    have hidx : (Int.log 1024 q).toNat < sizes.length := by
      have : sizes.length = 6 := rfl
      omega
    unfold formatBytes
    rw [if_neg hq0, if_pos hge, List.getElem?_eq_getElem hidx]
    rfl
  · intro q h0q hq1
    have hneg : Int.log 1024 q < 0 := by
      refine (Int.lt_zpow_iff_log_lt hb h0q).mp ?_
      rw [zpow_zero]
      exact hq1
    refine ⟨hneg, ?_⟩
    unfold formatBytes
    rw [if_neg (ne_of_gt h0q), if_neg (not_le.mpr hneg)]
  · intro q hq6
    have h0q : 0 < q := lt_of_lt_of_le (by positivity) hq6
    have hge : 6 ≤ Int.log 1024 q := by
      refine (Int.zpow_le_iff_le_log hb h0q).mp ?_
      rw [hpow6]
      exact hq6
    refine ⟨hge, ?_⟩
    have hidx : sizes.length ≤ (Int.log 1024 q).toNat := by
      have : sizes.length = 6 := rfl
      omega
    unfold formatBytes
    rw [if_neg (ne_of_gt h0q), if_pos (by omega : (0 : ℤ) ≤ Int.log 1024 q),
      List.getElem?_eq_none hidx]

/-- Witness for C9 (amended) at the non-integer input 5.555 and the integer
input 5. -/
theorem formatBytes_spec_amended_witness :
    (Int.log 1024 (1111 / 200 : ℚ) = 0 ∧
     formatBytes (1111 / 200 : ℚ) =
       some (toString (roundTo2 (1111 / 200 : ℚ)) ++ " " ++ "B")) ∧
    (roundTo2 (((5 : ℕ)) : ℚ) = (((5 : ℕ)) : ℚ) ∧
     formatBytes (((5 : ℕ)) : ℚ) =
       some (toString (((5 : ℕ)) : ℚ) ++ " " ++ "B")) :=
  ⟨formatBytes_spec_amended.2.1 (1111 / 200) (by norm_num) (by norm_num),
   formatBytes_spec_amended.2.2.1 5 (by decide) (by decide)⟩

end SmartCopy
